import Mathlib

/-!
Verification of the per-sentence graph-repair pipeline of
`scripts/connect_graph.py`.

The embedding works at the level of an already-parsed sentence: a list of
tokens, each carrying the ten CoNLL-U fields as strings (`parse_sentence`
builds exactly such a list of field dictionaries).  All list-mutating
Python loops (`clean_ids`, `clean_eheads`, the fragment-collapse pass)
are modelled with the exact CPython semantics of `del lst[i]` inside a
`for i, x in enumerate(lst)` loop: deleting the current element shifts
the remainder left, so the element that moves into slot `i` is skipped,
and repeated deletion at the same index can delete later elements or
raise `IndexError` when the index falls off the end.
-/

set_option autoImplicit false

namespace ConnectGraph

/-- One token of a sentence: the ten CoNLL-U fields, as produced by
`parse_sentence` (the `lemma` field is called `lemma_` because `lemma`
is a Lean keyword). -/
structure Token where
  id      : String
  form    : String
  lemma_  : String
  upos    : String
  xpos    : String
  feats   : String
  head    : String
  deprel  : String
  deps    : String
  misc    : String
deriving DecidableEq, Repr

/-- Split a list of characters at every occurrence of the separator
character, like Python's `str.split` with a one-character separator:
the result always has one more chunk than there are separators. -/
def splitChar (c : Char) : List Char → List (List Char)
  | [] => [[]]
  | x :: rest =>
    if x = c then [] :: splitChar c rest
    else
      match splitChar c rest with
      | [] => [[x]]
      | g :: gs => (x :: g) :: gs

/-- The characters before the first occurrence of `c`, like
`s.split(c)[0]` in Python. -/
def takeUntil (c : Char) : List Char → List Char
  | [] => []
  | x :: rest => if x = c then [] else x :: takeUntil c rest

/-- `convert_deps_to_nested_list`: each token's `deps` string is split
on `|`; every pipe-separated entry contributes the text before its
first `:` as a head.  (The Python `len == 1` and `len > 1` branches do
the same thing, so this is a plain map.) -/
def convert_deps_to_nested_list (deps : List String) : List (List String) :=
  deps.map fun d => (splitChar '|' d.data).map fun part => String.mk (takeUntil ':' part)

/-- `clean_ids`: removes ids containing `-` by `del inputs[i]` inside
`for i, x in enumerate(inputs)`.  Deleting the element at the cursor
makes the iterator skip the element that shifts into its slot. -/
def clean_ids : List String → List String
  | [] => []
  | [x] => if x.data.contains '-' then [] else [x]
  | x :: y :: rest =>
    if x.data.contains '-' then y :: clean_ids rest
    else x :: clean_ids (y :: rest)

/-- Drop `n` elements from the front, returning `none` when the list is
too short.  Models `n` successive `del lst[i]` operations on the part of
the list after the cursor: the `none` case is Python's `IndexError`. -/
def dropCheck {α : Type} : Nat → List α → Option (List α)
  | 0, l => some l
  | _ + 1, [] => none
  | n + 1, _ :: l => dropCheck n l

/-- Worker for `clean_eheads`, structurally recursive on explicit fuel
so that concrete runs reduce in the kernel.  For the list at the cursor,
one `del inputs[i]` fires per `"_"` it contains: the first deletes the
list itself, later ones delete the lists that shift into slot `i`
(raising `IndexError`, i.e. `none`, past the end), and afterwards the
iterator skips the list that ends up in the next slot. -/
def clean_eheads_go : Nat → List (List String) → Option (List (List String))
  | _, [] => some []
  | 0, _ :: _ => none
  | fuel + 1, x :: rest =>
    let c := x.count "_"
    if c = 0 then (clean_eheads_go fuel rest).map (x :: ·)
    else
      match dropCheck (c - 1) rest with
      | none => none
      | some [] => some []
      | some (y :: r) => (clean_eheads_go fuel r).map (y :: ·)

/-- `clean_eheads`: remove (in the buggy in-place fashion) the per-token
head lists that contain the placeholder `"_"`. -/
def clean_eheads (inputs : List (List String)) : Option (List (List String)) :=
  clean_eheads_go (inputs.length + 1) inputs

/-- The two ways head-set extraction can fail: `indexError` from the
over-deleting `clean_eheads` loop, `structuralMismatch` from the
`assert len(ids) == len(enhanced_heads)`. -/
inductive ExtractError where
  | indexError
  | structuralMismatch
deriving DecidableEq, Repr

/-- Head-set extraction (lines 126-136 of `_read`): clean the ids,
convert and clean the enhanced-head lists, and assert that the two
retained counts agree. -/
def extract (s : List Token) : Except ExtractError (List String × List (List String)) :=
  let ids := clean_ids (s.map (·.id))
  match clean_eheads (convert_deps_to_nested_list (s.map (·.deps))) with
  | none => .error .indexError
  | some ehs =>
    if ids.length = ehs.length then .ok (ids, ehs) else .error .structuralMismatch

/-- First-occurrence deduplication worker (Python dict keys keep the
position of their first insertion). -/
def firstDedupGo (seen : List String) : List String → List String
  | [] => []
  | x :: r => if x ∈ seen then firstDedupGo seen r else x :: firstDedupGo (x :: seen) r

/-- Key list of a Python dict built by inserting the elements in order. -/
def firstDedup (l : List String) : List String :=
  firstDedupGo [] l

/-- `ids_to_heads` (lines 139-143): a dict with one key per retained id
and, as value, the concatenation of the head lists zipped to that id.
Modelled as an association list in key-insertion order. -/
def ids_to_heads (ids : List String) (ehs : List (List String)) : List (String × List String) :=
  (firstDedup ids).map fun k =>
    (k, ((ids.zip ehs).filter (fun p => p.1 == k)).flatMap Prod.snd)

/-- The HeadMap stage of the pipeline: extraction followed by
`ids_to_heads`; `none` when extraction raised. -/
def headMapStage (s : List Token) : Option (List (String × List String)) :=
  (extract s).toOption.map fun p => ids_to_heads p.1 p.2

/-- Pass 1 of the Reachability Engine (lines 150-155): every token with
a head equal to `"0"` is appended to `nodes_reachable_from_root`, once
per such head occurrence. -/
def pass1 (m : List (String × List String)) : List String :=
  m.flatMap fun p => (p.2.filter (· == "0")).map fun _ => p.1

/-- `root_index` after pass 1: the last token seen with a `"0"` head
(`root_index` is overwritten on every hit), or unassigned. -/
def rootIdx (m : List (String × List String)) : Option String :=
  (pass1 m).getLast?

/-- Pass 2 (lines 157-161): append every token one of whose heads equals
`root_index`, once per matching head occurrence.  When `root_index` was
never assigned the first comparison raises `NameError` (`none`); the
comparison is only reached when some entry has at least one head. -/
def pass2 (m : List (String × List String)) : Option (List String) :=
  match rootIdx m with
  | some r => some (m.flatMap fun p => (p.2.filter (· == r)).map fun _ => p.1)
  | none => if m.all (fun p => p.2.isEmpty) then some [] else none

/-- The initial `nodes_reachable_from_root` fed to the while loop:
pass 1 followed by pass 2, `none` on `NameError`. -/
def initNodes (m : List (String × List String)) : Option (List String) :=
  (pass2 m).map (pass1 m ++ ·)

/-- Inner loop of `traverse_root_children` for one `(token, heads)`
entry: for each head already reachable, append the token if absent. -/
def sweepTok (t : String) (hs : List String) (ns : List String) : List String :=
  hs.foldl (fun ns h => if h ∈ ns ∧ t ∉ ns then ns ++ [t] else ns) ns

/-- One call of `traverse_root_children` (lines 22-46): one full sweep
over every `(token, head)` pair. -/
def sweep (m : List (String × List String)) (ns : List String) : List String :=
  m.foldl (fun ns p => sweepTok p.1 p.2 ns) ns

/-- The `while keep_searching_for_dependents` loop (lines 163-168):
repeat sweeps until one adds nothing (the lengths before and after
agree).  Fuel-based; `m.length + 1` calls always suffice. -/
def loopGo (m : List (String × List String)) : Nat → List String → List String
  | 0, ns => ns
  | fuel + 1, ns =>
    let ns' := sweep m ns
    if ns'.length = ns.length then ns' else loopGo m fuel ns'

/-- The final `nodes_reachable_from_root` (the ReachableSet). -/
def finalNodes (m : List (String × List String)) (init : List String) : List String :=
  loopGo m (m.length + 1) init

/-- Number of `traverse_root_children` calls the while loop makes
before (and including) the one that reports stability. -/
def sweepCount (m : List (String × List String)) : Nat → List String → Nat
  | 0, _ => 0
  | fuel + 1, ns =>
    let ns' := sweep m ns
    if ns'.length = ns.length then 1 else 1 + sweepCount m fuel ns'

/-- Number of sweeps executed by the while loop on map `m` from the
initial node list `init`. -/
def numSweeps (m : List (String × List String)) (init : List String) : Nat :=
  sweepCount m (m.length + 1) init

/-- ReachableSet stage: HeadMap, initial nodes, then the while loop. -/
def finalStage (s : List Token) : Option (List String) :=
  (headMapStage s).bind fun m => (initNodes m).map (finalNodes m)

/-- Step 3 (lines 172-177): for every `(token, head)` pair whose head is
neither `"0"` nor in the ReachableSet, append the token (duplicates and
all) to `unreachable_nodes`. -/
def unreachableOf (m : List (String × List String)) (fin : List String) : List String :=
  m.flatMap fun p => (p.2.filter (fun h => !(h == "0") && !(fin.contains h))).map fun _ => p.1

/-- The head list stored in the HeadMap for a token id. -/
def headsOf (m : List (String × List String)) (n : String) : List String :=
  (m.lookup n).getD []

/-- Steps 4 (lines 184-200): `unreachable_head_fragments`, keyed by
every head of every unreachable node in first-occurrence order, mapping
each such head to the unreachable nodes (with multiplicity) that carry
it.  The `ValueError` branch can never fire: the key set is built from
exactly the heads the second loop looks up. -/
def fragmentsOf (m : List (String × List String)) (unr : List String) :
    List (String × List String) :=
  (firstDedup (unr.flatMap (headsOf m))).map fun k =>
    (k, unr.flatMap fun n => ((headsOf m n).filter (· == k)).map fun _ => n)

/-- Worker for the collapse pass (lines 209-224), on explicit fuel.  At
the cursor `x`, one `del heads_of_fragments[i]` fires per fragment whose
children contain `x`: the first deletes `x`, later ones delete the keys
that shift into slot `i` (`IndexError`, i.e. `none`, past the end), and
the iterator then skips the key left in the next slot. -/
def collapse_go (frags : List (String × List String)) : Nat → List String → Option (List String)
  | _, [] => some []
  | 0, _ :: _ => none
  | fuel + 1, x :: rest =>
    if frags.countP (fun p => p.2.contains x) = 0 then
      (collapse_go frags fuel rest).map (x :: ·)
    else
      match dropCheck (frags.countP (fun p => p.2.contains x) - 1) rest with
      | none => none
      | some [] => some []
      | some (y :: r) => (collapse_go frags fuel r).map (y :: ·)

/-- The collapse pass: prune `heads_of_fragments` in place. -/
def collapse (frags : List (String × List String)) : Option (List String) :=
  collapse_go frags ((frags.map Prod.fst).length + 1) (frags.map Prod.fst)

/-- FragmentMap stage of the pipeline. -/
def fragmentsStage (s : List Token) : Option (List (String × List String)) :=
  (headMapStage s).bind fun m =>
    (initNodes m).map fun init =>
      fragmentsOf m (unreachableOf m (finalNodes m init))

/-- Surviving fragment keys after the collapse pass. -/
def survivorsStage (s : List Token) : Option (List String) :=
  (fragmentsStage s).bind collapse

/-- `pruned_tree` (lines 229-232): the surviving keys with their
original children lists. -/
def prunedStage (s : List Token) : Option (List (String × List String)) :=
  (survivorsStage s).bind fun ks =>
    (fragmentsStage s).map fun frags =>
      ks.filterMap fun k => (frags.lookup k).map fun cs => (k, cs)

/-- The Reattachment Emitter applied to one token (lines 238-243):
append `"|0:root"` to the `deps` field of tokens whose id is a key of
`pruned_tree`. -/
def emit (keys : List String) (tok : Token) : Token :=
  if tok.id ∈ keys then { tok with deps := tok.deps ++ "|0:root" } else tok

/-- The whole per-sentence body of `_read` (lines 126-243): `none` when
the Python code raises (assert, `NameError`, `IndexError`). -/
def processSentence (s : List Token) : Option (List Token) :=
  (prunedStage s).map fun pt => s.map (emit (pt.map Prod.fst))

/-- A token whose fields other than `id` and `deps` are all `"_"`;
convenient constructor for concrete test sentences. -/
def mkTok (i dp : String) : Token :=
  ⟨i, "_", "_", "_", "_", "_", "_", "_", dp, "_"⟩

/-- All `(token, head)` pairs of a HeadMap, in visit order. -/
def pairsOf (m : List (String × List String)) : List (String × String) :=
  m.flatMap fun p => p.2.map fun h => (p.1, h)

/-- Order-free reachability over a set of `(token, head)` pairs: a token
with head `"0"` is reachable, and a token one of whose heads is
reachable is reachable. -/
inductive Reach (P : List (String × String)) : String → Prop
  | root (t : String) : (t, "0") ∈ P → Reach P t
  | step (t h : String) : (t, h) ∈ P → Reach P h → Reach P t

/-- Number of key occurrences of the HeadMap not yet in the node list;
the strictly decreasing measure of the while loop. -/
def missing (m : List (String × List String)) (ns : List String) : Nat :=
  (m.map Prod.fst).countP fun k => decide (k ∉ ns)

/-- A fragment key occurring as a child value inside some fragment's
children list. -/
def isChild (frags : List (String × List String)) (k : String) : Prop :=
  ∃ p ∈ frags, k ∈ p.2

instance (frags : List (String × List String)) (k : String) : Decidable (isChild frags k) :=
  List.decidableBEx _ frags

/-! Spec-side definitions, used only to compare the spec's wording of
head-set extraction against the code (claim C8). -/

/-- Modelled from the spec: the token ids retained after discarding
every multi-word-token (hyphenated) id. -/
def specRetainedIds (s : List Token) : List String :=
  (s.map (·.id)).filter fun x => !(x.data.contains '-')

/-- Modelled from the spec: the per-token head lists retained after
dropping every placeholder (`"_"`) entry. -/
def specRetainedHeadLists (s : List Token) : List (List String) :=
  (convert_deps_to_nested_list (s.map (·.deps))).filter fun l => !(l.contains "_")

/-! Concrete test sentences. -/

/-- The spec's degenerate example: HeadMap
`{1: ["0"], 2: ["1"], 3: ["5"], 4: ["3"]}` where no token `"5"` exists. -/
def sPhantom : List Token :=
  [mkTok "1" "0:root", mkTok "2" "1:a", mkTok "3" "5:a", mkTok "4" "3:a"]

/-- A sentence whose token `"2"` is reachable (head `"1"`) but also
carries a second head `"9"` that is not in the ReachableSet. -/
def sMixedHeads : List Token :=
  [mkTok "1" "0:root", mkTok "2" "1:a|9:b"]

/-- A sentence consisting of a single multi-word token: its HeadMap is
empty, yet the while loop still performs one sweep. -/
def sMwtOnly : List Token :=
  [mkTok "1-2" "_"]

/-- Two unreachable tokens forming a head cycle: both fragment keys are
children, so the collapse pass's in-place deletion skips one of them. -/
def sCycle : List Token :=
  [mkTok "1" "0:root", mkTok "2" "3:a", mkTok "3" "2:a"]

/-- Two adjacent multi-word ids and a trailing placeholder list: the
skipping deletions retain the id `"2-3"` and delete an innocent head
list, so the code's retained counts disagree although the spec-level
filtered counts agree. -/
def sSkipClean : List Token :=
  [mkTok "1-2" "_", mkTok "2-3" "0:root", mkTok "1" "_"]

/-! Claim theorems on concrete inputs. -/

/-- Claim C1 (code bug): on the spec's own degenerate example the pipeline
appends nothing at all — the surviving fragment key is the phantom head
`"5"`, which matches no token id, so token `"3"` never receives the
promised `"|0:root"` edge and the ReachableSet stays `{"1", "2"}`:
tokens `"3"` and `"4"` are left unreachable from ROOT. -/
theorem C1_connectivity_code_bug :
    processSentence sPhantom = some sPhantom ∧
    survivorsStage sPhantom = some ["5"] ∧
    finalStage sPhantom = some ["1", "2"] := by
  refine ⟨by decide, by decide, by decide⟩

/-- Claim C3 (code bug): token `"1"` is in the final ReachableSet of
`sMixedHeads`, yet the emitter appends `"|0:root"` to it, because the
unreachable-node scan flags the reachable token `"2"` (one of its heads
is outside the set) and then token `"2"`'s reachable head `"1"` becomes
a surviving fragment key. -/
theorem C3_spurious_edge_code_bug :
    finalStage sMixedHeads = some ["1", "2"] ∧
    survivorsStage sMixedHeads = some ["1", "9"] ∧
    (processSentence sMixedHeads).map (List.map (·.deps)) =
      some ["0:root|0:root", "1:a|9:b"] := by
  refine ⟨by decide, by decide, by decide⟩

/-- Claim C4 (code bug): the pipeline is not idempotent — running it a
second time on its own output for `sMixedHeads` appends yet another
`"|0:root"` edge to token `"1"`. -/
theorem C4_idempotence_code_bug :
    ((processSentence sMixedHeads).bind processSentence).map (List.map (·.deps)) =
      some ["0:root|0:root|0:root", "1:a|9:b"] ∧
    (processSentence sMixedHeads).bind processSentence ≠ processSentence sMixedHeads := by
  refine ⟨by decide, by decide⟩

/-- Claim C2 counterexample: in the head cycle `sCycle` the fragment map
is `{"3": ["2"], "2": ["3"]}`; deleting key `"3"` makes the enumerate
cursor skip key `"2"`, so `"2"` survives the collapse although it occurs
as a child value in fragment `"3"`'s children list. -/
theorem C2_counterexample :
    fragmentsStage sCycle = some [("3", ["2"]), ("2", ["3"])] ∧
    survivorsStage sCycle = some ["2"] ∧
    ∃ p ∈ [("3", ["2"]), ("2", ["3"])], "2" ∈ p.2 := by
  refine ⟨by decide, by decide, by decide⟩

/-- Claim C6 counterexample: the sentence `sMwtOnly` has an empty
HeadMap (`N = 0`), yet the do-while structure of the loop still executes
one sweep, so the loop is not bounded by `N` sweeps. -/
theorem C6_counterexample :
    headMapStage sMwtOnly = some [] ∧
    initNodes ([] : List (String × List String)) = some [] ∧
    numSweeps ([] : List (String × List String)) [] = 1 ∧
    ¬ numSweeps ([] : List (String × List String)) [] ≤
        ([] : List (String × List String)).length := by
  refine ⟨by decide, by decide, by decide, by decide⟩

/-- Claim C8 counterexample: on `sSkipClean` the spec-level filters
retain one id (`"1"`) and one head list (`["0"]`), so by the claim
extraction should succeed, but the in-place cleaning passes retain two
ids (`"2-3"` skipped) and one head list, and the extraction fails with
`StructuralMismatch`. -/
theorem C8_counterexample :
    (specRetainedIds sSkipClean).length = (specRetainedHeadLists sSkipClean).length ∧
    extract sSkipClean = .error .structuralMismatch := by
  refine ⟨by decide, by rfl⟩

/-! Structure of one sweep: it only ever appends. -/

theorem sweepTok_cases (t : String) (hs ns : List String) :
    sweepTok t hs ns = ns ∨
      (t ∉ ns ∧ (∃ h ∈ hs, h ∈ ns) ∧ sweepTok t hs ns = ns ++ [t]) := by
  induction hs generalizing ns with
  | nil => exact Or.inl rfl
  | cons h hs ih =>
    have heq : sweepTok t (h :: hs) ns =
        sweepTok t hs (if h ∈ ns ∧ t ∉ ns then ns ++ [t] else ns) := rfl
    by_cases hc : h ∈ ns ∧ t ∉ ns
    · rw [heq, if_pos hc]
      rcases ih (ns ++ [t]) with happ | ⟨htn, _, _⟩
      · exact Or.inr ⟨hc.2, ⟨h, List.mem_cons_self h hs, hc.1⟩, happ⟩
      · exact absurd (List.mem_append_right ns (List.mem_singleton_self t)) htn
    · rw [heq, if_neg hc]
      rcases ih ns with happ | ⟨htn, ⟨h', hh', hm⟩, happ⟩
      · exact Or.inl happ
      · exact Or.inr ⟨htn, ⟨h', List.mem_cons_of_mem h hh', hm⟩, happ⟩

theorem sweepTok_exists_ext (t : String) (hs ns : List String) :
    ∃ e, sweepTok t hs ns = ns ++ e ∧ ∀ x ∈ e, x = t ∧ t ∉ ns := by
  rcases sweepTok_cases t hs ns with happ | ⟨htn, _, happ⟩
  · exact ⟨[], by simpa using happ, by simp⟩
  · exact ⟨[t], happ, by simpa using htn⟩

theorem sweep_exists_ext (m : List (String × List String)) :
    ∀ ns, ∃ e, sweep m ns = ns ++ e ∧ ∀ x ∈ e, x ∈ m.map Prod.fst ∧ x ∉ ns := by
  induction m with
  | nil => exact fun ns => ⟨[], by simp [sweep], by simp⟩
  | cons p m ih =>
    intro ns
    obtain ⟨e₁, he₁, hprop₁⟩ := sweepTok_exists_ext p.1 p.2 ns
    obtain ⟨e₂, he₂, hprop₂⟩ := ih (sweepTok p.1 p.2 ns)
    have heq : sweep (p :: m) ns = sweep m (sweepTok p.1 p.2 ns) := rfl
    refine ⟨e₁ ++ e₂, ?_, ?_⟩
    · rw [heq, he₂, he₁, List.append_assoc]
    · intro x hx
      rcases List.mem_append.mp hx with hx | hx
      · obtain ⟨rfl, htns⟩ := hprop₁ x hx
        exact ⟨by simp, htns⟩
      · obtain ⟨hxm, hxns⟩ := hprop₂ x hx
        refine ⟨by simp [hxm], fun hxns' => hxns ?_⟩
        rw [he₁]
        exact List.mem_append_left e₁ hxns'

/-! A sweep that returns its input unchanged witnesses closure. -/

theorem sweepTok_fix (t : String) (hs ns : List String) (hfix : sweepTok t hs ns = ns) :
    ∀ h ∈ hs, h ∈ ns → t ∈ ns := by
  induction hs with
  | nil => intro h hh; cases hh
  | cons h₀ hs ih =>
    by_cases hc : h₀ ∈ ns ∧ t ∉ ns
    · exfalso
      have heq : sweepTok t (h₀ :: hs) ns = sweepTok t hs (ns ++ [t]) := by
        show sweepTok t hs (if h₀ ∈ ns ∧ t ∉ ns then ns ++ [t] else ns) = _
        rw [if_pos hc]
      obtain ⟨e, he, _⟩ := sweepTok_exists_ext t hs (ns ++ [t])
      rw [heq, he] at hfix
      have hlen := congrArg List.length hfix
      simp [List.length_append] at hlen
    · have heq : sweepTok t (h₀ :: hs) ns = sweepTok t hs ns := by
        show sweepTok t hs (if h₀ ∈ ns ∧ t ∉ ns then ns ++ [t] else ns) = _
        rw [if_neg hc]
      rw [heq] at hfix
      intro h hh hns
      rcases List.mem_cons.mp hh with rfl | hh
      · by_contra htns
        exact hc ⟨hns, htns⟩
      · exact ih hfix h hh hns

theorem sweep_fix (m : List (String × List String)) :
    ∀ ns, sweep m ns = ns → ∀ p ∈ m, ∀ h ∈ p.2, h ∈ ns → p.1 ∈ ns := by
  induction m with
  | nil => intro ns _ p hp; cases hp
  | cons q m ih =>
    intro ns hfix p hp h hh hns
    have heq : sweep (q :: m) ns = sweep m (sweepTok q.1 q.2 ns) := rfl
    obtain ⟨e₁, he₁, _⟩ := sweepTok_exists_ext q.1 q.2 ns
    obtain ⟨e₂, he₂, _⟩ := sweep_exists_ext m (sweepTok q.1 q.2 ns)
    rw [heq, he₂, he₁] at hfix
    rw [List.append_assoc] at hfix
    have hlen : e₁ = [] ∧ e₂ = [] := by
      have hl := congrArg List.length hfix
      simp [List.length_append] at hl
      exact hl
    have hTok : sweepTok q.1 q.2 ns = ns := by
      rw [he₁, hlen.1, List.append_nil]
    rcases List.mem_cons.mp hp with rfl | hp
    · exact sweepTok_fix p.1 p.2 ns hTok h hh hns
    · have hm : sweep m ns = ns := by
        have h2 := he₂
        rw [hTok] at h2
        rw [h2, hlen.2, List.append_nil]
      exact ih ns hm p hp h hh hns

/-! The while loop: extension, termination measure, sweep count. -/

theorem loopGo_exists_ext (m : List (String × List String)) :
    ∀ (f : Nat) (ns : List String), ∃ e, loopGo m f ns = ns ++ e := by
  intro f
  induction f with
  | zero => exact fun ns => ⟨[], by simp [loopGo]⟩
  | succ f ih =>
    intro ns
    obtain ⟨e₁, he₁, _⟩ := sweep_exists_ext m ns
    show ∃ e, (if (sweep m ns).length = ns.length then sweep m ns else loopGo m f (sweep m ns)) = ns ++ e
    by_cases hlen : (sweep m ns).length = ns.length
    · rw [if_pos hlen]; exact ⟨e₁, he₁⟩
    · rw [if_neg hlen]
      obtain ⟨e₂, he₂⟩ := ih (sweep m ns)
      exact ⟨e₁ ++ e₂, by rw [he₂, he₁, List.append_assoc]⟩

theorem sweep_eq_of_length_eq (m : List (String × List String)) (ns : List String)
    (hlen : (sweep m ns).length = ns.length) : sweep m ns = ns := by
  obtain ⟨e, he, _⟩ := sweep_exists_ext m ns
  rw [he] at hlen ⊢
  simp [List.length_append] at hlen
  simp [hlen]

theorem countP_le_of_mono {α : Type} (p q : α → Bool) :
    ∀ l : List α, (∀ a ∈ l, q a = true → p a = true) → l.countP q ≤ l.countP p := by
  intro l
  induction l with
  | nil => simp
  | cons a l ih =>
    intro hmono
    have hl := ih fun a ha => hmono a (List.mem_cons_of_mem _ ha)
    by_cases hq : q a = true
    · have hp := hmono a (List.mem_cons_self a l) hq
      simp [List.countP_cons, hq, hp]; omega
    · simp only [List.countP_cons]
      simp only [Bool.not_eq_true] at hq
      simp [hq]
      by_cases hp : p a = true <;> simp [hp] <;> omega

theorem countP_lt_of_witness {α : Type} (p q : α → Bool) :
    ∀ l : List α, (∀ a ∈ l, q a = true → p a = true) →
      ∀ a₀ ∈ l, p a₀ = true → q a₀ = false → l.countP q < l.countP p := by
  intro l
  induction l with
  | nil => intro _ a₀ ha₀; cases ha₀
  | cons a l ih =>
    intro hmono a₀ ha₀ hp₀ hq₀
    have hmono' : ∀ a ∈ l, q a = true → p a = true :=
      fun a ha => hmono a (List.mem_cons_of_mem _ ha)
    have hle := countP_le_of_mono p q l hmono'
    rcases List.mem_cons.mp ha₀ with rfl | ha₀
    · simp [List.countP_cons, hp₀, hq₀]; omega
    · have hlt := ih hmono' a₀ ha₀ hp₀ hq₀
      simp only [List.countP_cons]
      by_cases hq : q a = true
      · have hp := hmono a (List.mem_cons_self a l) hq
        simp [hq, hp]; omega
      · simp only [Bool.not_eq_true] at hq
        simp [hq]
        by_cases hp : p a = true <;> simp [hp] <;> omega

theorem sweep_missing_lt (m : List (String × List String)) (ns : List String)
    (hne : sweep m ns ≠ ns) : missing m (sweep m ns) < missing m ns := by
  obtain ⟨e, he, hprop⟩ := sweep_exists_ext m ns
  have hene : e ≠ [] := by
    intro h0
    exact hne (by rw [he, h0, List.append_nil])
  obtain ⟨x, hx⟩ := List.exists_mem_of_ne_nil e hene
  obtain ⟨hxkey, hxns⟩ := hprop x hx
  apply countP_lt_of_witness _ _ _ ?mono x hxkey (by simpa using hxns) ?wit
  case mono =>
    intro a _ hdec
    have han : a ∉ sweep m ns := by simpa using hdec
    have : a ∉ ns := fun hc => han (by rw [he]; exact List.mem_append_left e hc)
    simpa using this
  case wit =>
    have : x ∈ sweep m ns := by rw [he]; exact List.mem_append_right ns hx
    simpa using this

theorem missing_lt_fuel (m : List (String × List String)) (ns : List String) :
    missing m ns < m.length + 1 := by
  have h := List.countP_le_length (fun k => decide (k ∉ ns)) (l := m.map Prod.fst)
  simp only [List.length_map] at h
  simp only [missing]
  omega

theorem loopGo_fix (m : List (String × List String)) :
    ∀ (f : Nat) (ns : List String), missing m ns < f →
      sweep m (loopGo m f ns) = loopGo m f ns := by
  intro f
  induction f with
  | zero => intro ns h; exact absurd h (Nat.not_lt_zero _)
  | succ f ih =>
    intro ns h
    show sweep m (if (sweep m ns).length = ns.length then sweep m ns else loopGo m f (sweep m ns)) =
      (if (sweep m ns).length = ns.length then sweep m ns else loopGo m f (sweep m ns))
    by_cases hlen : (sweep m ns).length = ns.length
    · rw [if_pos hlen]
      have heq := sweep_eq_of_length_eq m ns hlen
      rw [heq]
      exact heq
    · rw [if_neg hlen]
      apply ih
      have hne : sweep m ns ≠ ns := fun hc => hlen (by rw [hc])
      have := sweep_missing_lt m ns hne
      omega

theorem finalNodes_fix (m : List (String × List String)) (init : List String) :
    sweep m (finalNodes m init) = finalNodes m init :=
  loopGo_fix m (m.length + 1) init (missing_lt_fuel m init)

theorem finalNodes_exists_ext (m : List (String × List String)) (init : List String) :
    ∃ e, finalNodes m init = init ++ e :=
  loopGo_exists_ext m (m.length + 1) init

theorem sweepCount_le (m : List (String × List String)) :
    ∀ (f : Nat) (ns : List String), missing m ns < f →
      sweepCount m f ns ≤ missing m ns + 1 := by
  intro f
  induction f with
  | zero => intro ns h; exact absurd h (Nat.not_lt_zero _)
  | succ f ih =>
    intro ns h
    show (if (sweep m ns).length = ns.length then 1 else 1 + sweepCount m f (sweep m ns)) ≤ _
    by_cases hlen : (sweep m ns).length = ns.length
    · rw [if_pos hlen]; omega
    · rw [if_neg hlen]
      have hne : sweep m ns ≠ ns := fun hc => hlen (by rw [hc])
      have hlt := sweep_missing_lt m ns hne
      have hrec := ih (sweep m ns) (by omega)
      omega

/-! Reachability invariants: everything the engine ever appends is
derivable by the order-free `Reach` predicate, and conversely. -/

theorem sweepTok_reach (P : List (String × String)) (t : String) :
    ∀ (hs ns : List String), (∀ h ∈ hs, (t, h) ∈ P) → (∀ x ∈ ns, Reach P x) →
      ∀ x ∈ sweepTok t hs ns, Reach P x := by
  intro hs
  induction hs with
  | nil => intro ns _ hinv x hx; exact hinv x hx
  | cons h₀ hs ih =>
    intro ns hpair hinv x hx
    have heq : sweepTok t (h₀ :: hs) ns =
        sweepTok t hs (if h₀ ∈ ns ∧ t ∉ ns then ns ++ [t] else ns) := rfl
    rw [heq] at hx
    refine ih _ (fun h hh => hpair h (List.mem_cons_of_mem _ hh)) ?_ x hx
    intro y hy
    by_cases hc : h₀ ∈ ns ∧ t ∉ ns
    · rw [if_pos hc] at hy
      rcases List.mem_append.mp hy with hy | hy
      · exact hinv y hy
      · have hyt : y = t := by simpa using hy
        subst hyt
        exact Reach.step y h₀ (hpair h₀ (List.mem_cons_self h₀ hs)) (hinv h₀ hc.1)
    · rw [if_neg hc] at hy
      exact hinv y hy

theorem mem_pairsOf {m : List (String × List String)} {t h : String} :
    (t, h) ∈ pairsOf m ↔ ∃ hs, (t, hs) ∈ m ∧ h ∈ hs := by
  simp only [pairsOf, List.mem_flatMap, List.mem_map]
  constructor
  · rintro ⟨p, hp, h', hh', heq⟩
    obtain ⟨rfl, rfl⟩ := Prod.mk.injEq .. ▸ And.intro (congrArg Prod.fst heq) (congrArg Prod.snd heq)
    exact ⟨p.2, hp, hh'⟩
  · rintro ⟨hs, hmem, hh⟩
    exact ⟨(t, hs), hmem, h, hh, rfl⟩

theorem sweep_reach (P : List (String × String)) :
    ∀ (m : List (String × List String)) (ns : List String),
      (∀ p ∈ m, ∀ h ∈ p.2, (p.1, h) ∈ P) → (∀ x ∈ ns, Reach P x) →
      ∀ x ∈ sweep m ns, Reach P x := by
  intro m
  induction m with
  | nil => intro ns _ hinv x hx; exact hinv x hx
  | cons p m ih =>
    intro ns hpair hinv x hx
    have heq : sweep (p :: m) ns = sweep m (sweepTok p.1 p.2 ns) := rfl
    rw [heq] at hx
    refine ih _ (fun q hq => hpair q (List.mem_cons_of_mem _ hq)) ?_ x hx
    exact sweepTok_reach P p.1 p.2 ns
      (fun h hh => hpair p (List.mem_cons_self p m) h hh) hinv

theorem loopGo_reach (P : List (String × String)) (m : List (String × List String))
    (hpair : ∀ p ∈ m, ∀ h ∈ p.2, (p.1, h) ∈ P) :
    ∀ (f : Nat) (ns : List String), (∀ x ∈ ns, Reach P x) →
      ∀ x ∈ loopGo m f ns, Reach P x := by
  intro f
  induction f with
  | zero => intro ns hinv x hx; exact hinv x hx
  | succ f ih =>
    intro ns hinv x hx
    have hsw := sweep_reach P m ns hpair hinv
    by_cases hlen : (sweep m ns).length = ns.length
    · rw [show loopGo m (f + 1) ns = sweep m ns from if_pos hlen] at hx
      exact hsw x hx
    · rw [show loopGo m (f + 1) ns = loopGo m f (sweep m ns) from if_neg hlen] at hx
      exact ih (sweep m ns) hsw x hx

theorem mem_pass1 {m : List (String × List String)} {x : String} :
    x ∈ pass1 m ↔ ∃ hs, (x, hs) ∈ m ∧ "0" ∈ hs := by
  simp only [pass1, List.mem_flatMap, List.mem_map, List.mem_filter]
  constructor
  · rintro ⟨p, hp, h, ⟨hh, hzero⟩, rfl⟩
    have : h = "0" := by simpa using hzero
    subst this
    exact ⟨p.2, hp, hh⟩
  · rintro ⟨hs, hmem, hh⟩
    exact ⟨(x, hs), hmem, "0", ⟨hh, by simp⟩, rfl⟩

theorem mem_of_getLast?_eq {α : Type} {l : List α} {a : α} (h : l.getLast? = some a) :
    a ∈ l := by
  have hmem : a ∈ l.getLast? := by rw [Option.mem_def, h]
  obtain ⟨hne, rfl⟩ := List.mem_getLast?_eq_getLast hmem
  exact List.getLast_mem hne

theorem pass1_reach (m : List (String × List String)) :
    ∀ x ∈ pass1 m, Reach (pairsOf m) x := by
  intro x hx
  obtain ⟨hs, hmem, hzero⟩ := mem_pass1.mp hx
  exact Reach.root x (mem_pairsOf.mpr ⟨hs, hmem, hzero⟩)

theorem initNodes_reach (m : List (String × List String)) (init : List String)
    (hinit : initNodes m = some init) : ∀ x ∈ init, Reach (pairsOf m) x := by
  unfold initNodes at hinit
  cases h2 : pass2 m with
  | none => rw [h2] at hinit; cases hinit
  | some ns2 =>
    rw [h2] at hinit
    obtain rfl : pass1 m ++ ns2 = init := by simpa using hinit
    intro x hx
    rcases List.mem_append.mp hx with hx | hx
    · exact pass1_reach m x hx
    · unfold pass2 at h2
      cases hr : rootIdx m with
      | none =>
        rw [hr] at h2
        by_cases hall : m.all (fun p => p.2.isEmpty)
        · rw [if_pos hall] at h2
          obtain rfl : ([] : List String) = ns2 := by simpa using h2
          cases hx
        · rw [if_neg hall] at h2; cases h2
      | some r =>
        rw [hr] at h2
        have hr' : r ∈ pass1 m := mem_of_getLast?_eq hr
        have hreach_r : Reach (pairsOf m) r := pass1_reach m r hr'
        obtain rfl : (m.flatMap fun p => (p.2.filter (· == r)).map fun _ => p.1) = ns2 := by
          simpa using h2
        simp only [List.mem_flatMap, List.mem_map, List.mem_filter] at hx
        obtain ⟨p, hp, h, ⟨hh, hhr⟩, rfl⟩ := hx
        have : h = r := by simpa using hhr
        subst this
        exact Reach.step p.1 h (mem_pairsOf.mpr ⟨p.2, hp, hh⟩) hreach_r

theorem mem_finalNodes_iff (m : List (String × List String)) (init : List String)
    (hinit : initNodes m = some init) (x : String) :
    x ∈ finalNodes m init ↔ Reach (pairsOf m) x := by
  constructor
  · intro hx
    exact loopGo_reach (pairsOf m) m
      (fun p hp h hh => mem_pairsOf.mpr ⟨p.2, hp, hh⟩)
      (m.length + 1) init (initNodes_reach m init hinit) x hx
  · intro hr
    induction hr with
    | root t hpair =>
      obtain ⟨hs, hmem, hzero⟩ := mem_pairsOf.mp hpair
      have ht1 : t ∈ pass1 m := mem_pass1.mpr ⟨hs, hmem, hzero⟩
      have htinit : t ∈ init := by
        unfold initNodes at hinit
        cases h2 : pass2 m with
        | none => rw [h2] at hinit; cases hinit
        | some ns2 =>
          rw [h2] at hinit
          obtain rfl : pass1 m ++ ns2 = init := by simpa using hinit
          exact List.mem_append_left ns2 ht1
      obtain ⟨e, he⟩ := finalNodes_exists_ext m init
      rw [he]
      exact List.mem_append_left e htinit
    | step t h hpair _ ihh =>
      obtain ⟨hs, hmem, hh⟩ := mem_pairsOf.mp hpair
      exact sweep_fix m (finalNodes m init) (finalNodes_fix m init) (t, hs) hmem h hh ihh

theorem reach_mono {P₁ P₂ : List (String × String)} (h : ∀ p ∈ P₁, p ∈ P₂) {x : String}
    (hr : Reach P₁ x) : Reach P₂ x := by
  induction hr with
  | root t hp => exact .root t (h _ hp)
  | step t h' hp _ ih => exact .step t h' (h _ hp) ih

theorem sweep_of_empty_heads :
    ∀ m : List (String × List String), (∀ p ∈ m, p.2 = []) → ∀ ns, sweep m ns = ns := by
  intro m
  induction m with
  | nil => intro _ ns; rfl
  | cons p m ih =>
    intro hall ns
    have hp : p.2 = [] := hall p (List.mem_cons_self p m)
    have heq : sweep (p :: m) ns = sweep m (sweepTok p.1 p.2 ns) := rfl
    rw [heq, hp]
    exact ih (fun q hq => hall q (List.mem_cons_of_mem p hq)) ns

/-- Claim C5: each sweep of `traverse_root_children` only extends
`nodes_reachable_from_root` (the result is the input followed by a
suffix, so no member is removed and existing members keep their
positions), and a sweep that adds nothing witnesses that every token
with at least one head in the node list is itself in the list. -/
theorem C5_sweep_monotone_closure (m : List (String × List String)) (ns : List String) :
    (∃ e, sweep m ns = ns ++ e) ∧
    (sweep m ns = ns → ∀ p ∈ m, ∀ h ∈ p.2, h ∈ ns → p.1 ∈ ns) := by
  constructor
  · obtain ⟨e, he, _⟩ := sweep_exists_ext m ns
    exact ⟨e, he⟩
  · exact sweep_fix m ns

theorem C5_witness : "2" ∈ (["1", "2"] : List String) :=
  (C5_sweep_monotone_closure [("2", ["1"])] ["1", "2"]).2 (by decide)
    ("2", ["1"]) (by decide) "1" (by decide) (by decide)

/-- Claim C6 (amended): for a sentence whose HeadMap `m` reaches the
while loop with initial list `init`, the loop reaches the stable state
in at most `max m.length 1` sweeps (not `m.length`: even an empty map
costs the one sweep that discovers stability); a sweep whose length
check succeeds really added no member, and the final node list is a
fixed point of `sweep`. -/
theorem C6_termination_amended (s : List Token) (m : List (String × List String))
    (init : List String) (hm : headMapStage s = some m)
    (hinit : initNodes m = some init) :
    numSweeps m init ≤ max m.length 1 ∧
    sweep m (finalNodes m init) = finalNodes m init ∧
    ∀ ns : List String, (sweep m ns).length = ns.length → sweep m ns = ns := by
  refine ⟨?_, finalNodes_fix m init, fun ns => sweep_eq_of_length_eq m ns⟩
  unfold initNodes at hinit
  cases h2 : pass2 m with
  | none => rw [h2] at hinit; cases hinit
  | some ns2 =>
    rw [h2] at hinit
    obtain rfl : pass1 m ++ ns2 = init := by simpa using hinit
    unfold pass2 at h2
    cases hr : rootIdx m with
    | some r =>
      rw [hr] at h2
      have hrp : r ∈ pass1 m := mem_of_getLast?_eq hr
      have hrinit : r ∈ pass1 m ++ ns2 := List.mem_append_left ns2 hrp
      have hrkey : r ∈ m.map Prod.fst := by
        obtain ⟨hs, hmem, _⟩ := mem_pass1.mp hrp
        exact List.mem_map.mpr ⟨(r, hs), hmem, rfl⟩
      have hmiss : missing m (pass1 m ++ ns2) < m.length := by
        have hlt := countP_lt_of_witness (fun _ => true)
          (fun k => decide (k ∉ pass1 m ++ ns2)) (m.map Prod.fst)
          (by simp) r hrkey rfl (by simp [hrinit])
        have htrue : (m.map Prod.fst).countP (fun _ => true) = m.length := by
          rw [List.countP_eq_length.mpr (by simp), List.length_map]
        unfold missing
        omega
      have hb := sweepCount_le m (m.length + 1) (pass1 m ++ ns2) (by omega)
      unfold numSweeps
      omega
    | none =>
      rw [hr] at h2
      by_cases hall : m.all fun p => p.2.isEmpty
      · rw [if_pos hall] at h2
        have hempty : ∀ p ∈ m, p.2 = [] := by
          intro p hp
          have := List.all_eq_true.mp hall p hp
          simpa [List.isEmpty_iff] using this
        have hsw := sweep_of_empty_heads m hempty
        have hone : numSweeps m (pass1 m ++ ns2) = 1 := by
          show (if (sweep m (pass1 m ++ ns2)).length = (pass1 m ++ ns2).length then 1
            else 1 + sweepCount m m.length (sweep m (pass1 m ++ ns2))) = 1
          rw [hsw]
          simp
        omega
      · rw [if_neg hall] at h2; cases h2

theorem C6_witness :
    numSweeps [("1", ["0"]), ("2", ["1"]), ("3", ["5"]), ("4", ["3"])] ["1", "2"] ≤
      max (List.length [("1", ["0"]), ("2", ["1"]), ("3", ["5"]), ("4", ["3"])]) 1 :=
  (C6_termination_amended sPhantom [("1", ["0"]), ("2", ["1"]), ("3", ["5"]), ("4", ["3"])]
    ["1", "2"] (by decide) (by decide)).1

/-- Claim C7: the final membership of `nodes_reachable_from_root` does
not depend on the order in which the HeadMap's `(token, head)` pairs are
visited — two maps carrying the same pair set (in any order, hence with
any `root_index`) yield the same final ReachableSet whenever both reach
the loop. -/
theorem C7_order_independence (m₁ m₂ : List (String × List String))
    (init₁ init₂ : List String)
    (h₁ : initNodes m₁ = some init₁) (h₂ : initNodes m₂ = some init₂)
    (hfw : ∀ p ∈ pairsOf m₁, p ∈ pairsOf m₂)
    (hbw : ∀ p ∈ pairsOf m₂, p ∈ pairsOf m₁) (x : String) :
    x ∈ finalNodes m₁ init₁ ↔ x ∈ finalNodes m₂ init₂ := by
  rw [mem_finalNodes_iff m₁ init₁ h₁ x, mem_finalNodes_iff m₂ init₂ h₂ x]
  exact ⟨reach_mono hfw, reach_mono hbw⟩

theorem C7_witness :
    ("3" ∈ finalNodes [("1", ["0"]), ("2", ["0"]), ("3", ["1"])] ["1", "2"] ↔
      "3" ∈ finalNodes [("3", ["1"]), ("2", ["0"]), ("1", ["0"])] ["2", "1", "3"]) :=
  C7_order_independence [("1", ["0"]), ("2", ["0"]), ("3", ["1"])]
    [("3", ["1"]), ("2", ["0"]), ("1", ["0"])] ["1", "2"] ["2", "1", "3"]
    (by decide) (by decide) (by decide) (by decide) "3"

/-- Claim C9: whenever the pipeline completes, its whole effect on the
sentence is the Reattachment Emitter's per-token map: exactly the tokens
whose id is a key of `pruned_tree` have `"|0:root"` appended to their
`deps` field, and every other field, every id, and the token order are
untouched. -/
theorem C9_emitter_frame (s : List Token) (pt : List (String × List String))
    (hpt : prunedStage s = some pt) :
    processSentence s = some (s.map fun tok =>
      { tok with deps :=
          if tok.id ∈ pt.map Prod.fst then tok.deps ++ "|0:root" else tok.deps }) := by
  unfold processSentence
  rw [hpt]
  show some (s.map (emit (pt.map Prod.fst))) = _
  congr 1
  apply List.map_congr_left
  intro tok _
  unfold emit
  by_cases h : tok.id ∈ pt.map Prod.fst
  · simp [h]
  · simp [h]

theorem C9_witness :
    processSentence sPhantom = some (sPhantom.map fun tok =>
      { tok with deps :=
          if tok.id ∈ [("5", ["3"])].map Prod.fst then tok.deps ++ "|0:root"
          else tok.deps }) :=
  C9_emitter_frame sPhantom [("5", ["3"])] (by decide)

/-- Claim C10: a sentence whose HeadMap is non-empty (some token retains
at least one head) but in which no head equals `"0"` makes the pipeline
raise before producing a result: pass 2 compares against the unassigned
`root_index` and dies with `NameError`. -/
theorem C10_missing_root_error (s : List Token) (m : List (String × List String))
    (hm : headMapStage s = some m) (hne : ∃ p ∈ m, p.2 ≠ [])
    (hz : ∀ p ∈ m, "0" ∉ p.2) :
    processSentence s = none := by
  have hp1 : pass1 m = [] := by
    by_contra hne'
    obtain ⟨x, hx⟩ := List.exists_mem_of_ne_nil _ hne'
    obtain ⟨hs, hmem, hzero⟩ := mem_pass1.mp hx
    exact hz (x, hs) hmem hzero
  have hroot : rootIdx m = none := by
    unfold rootIdx
    rw [hp1]
    rfl
  have hall : m.all (fun p => p.2.isEmpty) = false := by
    obtain ⟨p, hp, hpne⟩ := hne
    have hnot : ¬ m.all (fun p => p.2.isEmpty) = true := by
      intro hT
      exact hpne (by simpa [List.isEmpty_iff] using List.all_eq_true.mp hT p hp)
    simpa using hnot
  have h2 : pass2 m = none := by
    unfold pass2
    rw [hroot, hall]
    rfl
  have hinit : initNodes m = none := by
    unfold initNodes
    rw [h2]
    rfl
  simp [processSentence, prunedStage, survivorsStage, fragmentsStage, hm, hinit]

theorem C10_witness : processSentence [mkTok "1" "2:a", mkTok "2" "1:b"] = none :=
  C10_missing_root_error [mkTok "1" "2:a", mkTok "2" "1:b"] [("1", ["2"]), ("2", ["1"])]
    (by decide) (by decide) (by decide)

/-! First-occurrence deduplication: membership and distinctness. -/

theorem firstDedupGo_cons (seen : List String) (x : String) (r : List String) :
    firstDedupGo seen (x :: r) =
      if x ∈ seen then firstDedupGo seen r else x :: firstDedupGo (x :: seen) r := rfl

theorem mem_firstDedupGo (a : String) :
    ∀ (l seen : List String), a ∈ firstDedupGo seen l ↔ (a ∈ l ∧ a ∉ seen) := by
  intro l
  induction l with
  | nil => intro seen; simp [firstDedupGo]
  | cons x r ih =>
    intro seen
    by_cases hx : x ∈ seen
    · rw [firstDedupGo_cons, if_pos hx]
      rw [ih seen]
      constructor
      · rintro ⟨ha, hs⟩; exact ⟨List.mem_cons_of_mem x ha, hs⟩
      · rintro ⟨ha, hs⟩
        rcases List.mem_cons.mp ha with rfl | ha
        · exact absurd hx hs
        · exact ⟨ha, hs⟩
    · rw [firstDedupGo_cons, if_neg hx]
      constructor
      · intro h
        rcases List.mem_cons.mp h with rfl | h
        · exact ⟨List.mem_cons_self a r, hx⟩
        · obtain ⟨ha, hs⟩ := (ih (x :: seen)).mp h
          exact ⟨List.mem_cons_of_mem x ha,
            fun hc => hs (List.mem_cons_of_mem x hc)⟩
      · rintro ⟨ha, hs⟩
        rcases List.mem_cons.mp ha with rfl | ha
        · exact List.mem_cons_self a _
        · by_cases hax : a = x
          · subst hax; exact List.mem_cons_self a _
          · exact List.mem_cons_of_mem x ((ih (x :: seen)).mpr
              ⟨ha, fun hc => (List.mem_cons.mp hc).elim hax hs⟩)

theorem mem_firstDedup {a : String} {l : List String} : a ∈ firstDedup l ↔ a ∈ l := by
  simp [firstDedup, mem_firstDedupGo]

theorem nodup_firstDedupGo : ∀ (l seen : List String), (firstDedupGo seen l).Nodup := by
  intro l
  induction l with
  | nil => intro seen; simp [firstDedupGo]
  | cons x r ih =>
    intro seen
    by_cases hx : x ∈ seen
    · rw [firstDedupGo_cons, if_pos hx]
      exact ih seen
    · rw [firstDedupGo_cons, if_neg hx]
      refine List.nodup_cons.mpr ⟨?_, ih (x :: seen)⟩
      intro hc
      exact ((mem_firstDedupGo x r (x :: seen)).mp hc).2 (List.mem_cons_self x seen)

theorem nodup_firstDedup (l : List String) : (firstDedup l).Nodup :=
  nodup_firstDedupGo l []

theorem ids_to_heads_keys (ids : List String) (ehs : List (List String)) :
    (ids_to_heads ids ehs).map Prod.fst = firstDedup ids := by
  unfold ids_to_heads
  rw [List.map_map]
  exact List.map_id _ ▸ List.map_congr_left fun k _ => rfl

/-! Head-set extraction: the two equations of `extract`. -/

theorem extract_of_clean_none (s : List Token)
    (h : clean_eheads (convert_deps_to_nested_list (s.map (·.deps))) = none) :
    extract s = .error .indexError := by
  unfold extract
  rw [h]

theorem extract_of_clean_some (s : List Token) (ehs : List (List String))
    (h : clean_eheads (convert_deps_to_nested_list (s.map (·.deps))) = some ehs) :
    extract s =
      if (clean_ids (s.map (·.id))).length = ehs.length
      then .ok (clean_ids (s.map (·.id)), ehs) else .error .structuralMismatch := by
  unfold extract
  rw [h]

/-- Claim C8 (amended): extraction fails with `StructuralMismatch` iff
the head lists that survive the in-place `clean_eheads` pass and the ids
that survive the in-place `clean_ids` pass differ in number (the passes
skip the element shifted into the deleted slot, so these are not the
spec-level filtered counts; `clean_eheads` may instead die with an
`IndexError`); when the two retained counts agree, extraction returns
exactly the retained ids, each of which is a HeadMap key. -/
theorem C8_extraction_amended (s : List Token) :
    ((extract s = .error .structuralMismatch) ↔
      ∃ ehs, clean_eheads (convert_deps_to_nested_list (s.map (·.deps))) = some ehs ∧
        (clean_ids (s.map (·.id))).length ≠ ehs.length) ∧
    (∀ ids ehs, extract s = .ok (ids, ehs) →
      ids = clean_ids (s.map (·.id)) ∧
        ∀ i ∈ ids, i ∈ (ids_to_heads ids ehs).map Prod.fst) := by
  cases hce : clean_eheads (convert_deps_to_nested_list (s.map (·.deps))) with
  | none =>
    have hex := extract_of_clean_none s hce
    refine ⟨⟨fun h => ?_, fun ⟨ehs, hsome, _⟩ => ?_⟩, fun ids ehs h => ?_⟩
    · rw [hex] at h
      injection h with h'
      exact ExtractError.noConfusion h'
    · cases hsome
    · rw [hex] at h
      exact Except.noConfusion h
  | some ehs₀ =>
    have hex := extract_of_clean_some s ehs₀ hce
    by_cases hlen : (clean_ids (s.map (·.id))).length = ehs₀.length
    · rw [if_pos hlen] at hex
      refine ⟨⟨fun h => ?_, fun ⟨ehs, hsome, hne⟩ => ?_⟩, fun ids ehs h => ?_⟩
      · rw [hex] at h
        exact Except.noConfusion h
      · obtain rfl : ehs₀ = ehs := by injection hsome
        exact absurd hlen hne
      · rw [hex] at h
        injection h with h'
        injection h' with h1 h2
        subst h1
        subst h2
        refine ⟨rfl, fun i hi => ?_⟩
        rw [ids_to_heads_keys]
        exact mem_firstDedup.mpr hi
    · rw [if_neg hlen] at hex
      refine ⟨⟨fun _ => ⟨ehs₀, rfl, hlen⟩, fun _ => hex⟩, fun ids ehs h => ?_⟩
      rw [hex] at h
      exact Except.noConfusion h

theorem C8_witness :
    ("1" : String) ∈ (ids_to_heads ["1"] [["0"]]).map Prod.fst :=
  ((C8_extraction_amended [mkTok "1" "0:root"]).2 ["1"] [["0"]] (by rfl)).2 "1" (by decide)

/-! The collapse pass: soundness of the surviving keys when at most one
key occurs as a child value. -/

theorem dropCheck_sublist {α : Type} :
    ∀ (n : Nat) (l l' : List α), dropCheck n l = some l' → l'.Sublist l := by
  intro n
  induction n with
  | zero =>
    intro l l' h
    obtain rfl : l = l' := by injection h
    exact List.Sublist.refl l
  | succ n ih =>
    intro l l' h
    cases l with
    | nil => cases h
    | cons a l => exact (ih l l' h).cons a

theorem collapse_go_cons (frags : List (String × List String)) (fuel : Nat)
    (x : String) (rest : List String) :
    collapse_go frags (fuel + 1) (x :: rest) =
      if frags.countP (fun p => p.2.contains x) = 0 then
        (collapse_go frags fuel rest).map (x :: ·)
      else
        match dropCheck (frags.countP (fun p => p.2.contains x) - 1) rest with
        | none => none
        | some [] => some []
        | some (y :: r) => (collapse_go frags fuel r).map (y :: ·) := rfl

theorem countP_child_eq_zero {frags : List (String × List String)} {x : String}
    (h : frags.countP (fun p => p.2.contains x) = 0) : ¬ isChild frags x := by
  rintro ⟨p, hp, hxp⟩
  have hpos : 0 < frags.countP fun p => p.2.contains x :=
    List.countP_pos_iff.mpr ⟨p, hp, by simpa using hxp⟩
  omega

theorem countP_child_ne_zero {frags : List (String × List String)} {x : String}
    (h : frags.countP (fun p => p.2.contains x) ≠ 0) : isChild frags x := by
  obtain ⟨p, hp, hxp⟩ := List.countP_pos_iff.mp (Nat.pos_of_ne_zero h)
  exact ⟨p, hp, by simpa using hxp⟩

theorem collapse_go_sound (frags : List (String × List String)) :
    ∀ (fuel : Nat) (l ks : List String), l.Nodup →
      (∀ k₁ ∈ l, isChild frags k₁ → ∀ k₂ ∈ l, isChild frags k₂ → k₁ = k₂) →
      collapse_go frags fuel l = some ks →
      ∀ k ∈ ks, ¬ isChild frags k := by
  intro fuel
  induction fuel with
  | zero =>
    intro l ks _ _ hgo k hk
    cases l with
    | nil =>
      obtain rfl : ([] : List String) = ks := by injection hgo
      cases hk
    | cons x rest => cases hgo
  | succ fuel ih =>
    intro l ks hnd huniq hgo
    cases l with
    | nil =>
      obtain rfl : ([] : List String) = ks := by injection hgo
      intro k hk
      cases hk
    | cons x rest =>
      rw [collapse_go_cons] at hgo
      by_cases hc : frags.countP (fun p => p.2.contains x) = 0
      · rw [if_pos hc] at hgo
        cases hrec : collapse_go frags fuel rest with
        | none => rw [hrec] at hgo; cases hgo
        | some ks' =>
          rw [hrec] at hgo
          obtain rfl : x :: ks' = ks := by simpa using hgo
          have hrest : ∀ k ∈ ks', ¬ isChild frags k := by
            refine ih rest ks' (List.nodup_cons.mp hnd).2 ?_ hrec
            intro k₁ hk₁ hc₁ k₂ hk₂ hc₂
            exact huniq k₁ (List.mem_cons_of_mem x hk₁) hc₁
              k₂ (List.mem_cons_of_mem x hk₂) hc₂
          intro k hk
          rcases List.mem_cons.mp hk with rfl | hk
          · exact countP_child_eq_zero hc
          · exact hrest k hk
      · rw [if_neg hc] at hgo
        have hx_child : isChild frags x := countP_child_ne_zero hc
        cases hdrop : dropCheck (frags.countP (fun p => p.2.contains x) - 1) rest with
        | none => rw [hdrop] at hgo; cases hgo
        | some rem =>
          rw [hdrop] at hgo
          have hremsub : rem.Sublist rest := dropCheck_sublist _ rest rem hdrop
          cases rem with
          | nil =>
            obtain rfl : ([] : List String) = ks := by injection hgo
            intro k hk
            cases hk
          | cons y r =>
            have hgo' : (collapse_go frags fuel r).map (y :: ·) = some ks := hgo
            cases hrec : collapse_go frags fuel r with
            | none => rw [hrec] at hgo'; cases hgo'
            | some ks' =>
              rw [hrec] at hgo'
              obtain rfl : y :: ks' = ks := by simpa using hgo'
              have hy_rest : y ∈ rest := hremsub.subset (List.mem_cons_self y r)
              have hyx : y ≠ x :=
                fun hq => (List.nodup_cons.mp hnd).1 (hq ▸ hy_rest)
              have hy_not : ¬ isChild frags y := fun hcy =>
                hyx (huniq y (List.mem_cons_of_mem x hy_rest) hcy
                  x (List.mem_cons_self x rest) hx_child)
              have hrsub : r.Sublist rest :=
                (List.sublist_cons_self y r).trans hremsub
              have hrest : ∀ k ∈ ks', ¬ isChild frags k := by
                refine ih r ks' (((List.nodup_cons.mp hnd).2).sublist hrsub) ?_ hrec
                intro k₁ hk₁ hc₁ k₂ hk₂ hc₂
                exact huniq k₁ (List.mem_cons_of_mem x (hrsub.subset hk₁)) hc₁
                  k₂ (List.mem_cons_of_mem x (hrsub.subset hk₂)) hc₂
              intro k hk
              rcases List.mem_cons.mp hk with rfl | hk
              · exact hy_not
              · exact hrest k hk

theorem fragmentsOf_keys (m : List (String × List String)) (unr : List String) :
    (fragmentsOf m unr).map Prod.fst = firstDedup (unr.flatMap (headsOf m)) := by
  unfold fragmentsOf
  rw [List.map_map]
  exact List.map_id _ ▸ List.map_congr_left fun k _ => rfl

/-- Claim C2 (amended): provided at most one fragment key occurs as a
child value in the fragments' children lists, no surviving fragment key
occurs as a child value in the children list of any fragment of the
original FragmentMap.  (Without that proviso the in-place deletion can
skip a key that is itself a child, see the cycle counterexample.) -/
theorem C2_fragment_minimality_amended (s : List Token)
    (frags : List (String × List String)) (ks : List String)
    (hfr : fragmentsStage s = some frags) (hks : survivorsStage s = some ks)
    (huniq : ∀ k₁ ∈ frags.map Prod.fst, isChild frags k₁ →
      ∀ k₂ ∈ frags.map Prod.fst, isChild frags k₂ → k₁ = k₂) :
    ∀ k ∈ ks, ¬ isChild frags k := by
  have hcol : collapse frags = some ks := by
    unfold survivorsStage at hks
    rw [hfr] at hks
    simpa using hks
  have hnd : (frags.map Prod.fst).Nodup := by
    unfold fragmentsStage at hfr
    cases hm : headMapStage s with
    | none => rw [hm] at hfr; cases hfr
    | some m =>
      rw [hm] at hfr
      have hfr' : (initNodes m).map
          (fun init => fragmentsOf m (unreachableOf m (finalNodes m init))) = some frags := hfr
      cases hin : initNodes m with
      | none => rw [hin] at hfr'; cases hfr'
      | some init =>
        rw [hin] at hfr'
        obtain rfl : fragmentsOf m (unreachableOf m (finalNodes m init)) = frags := by
          simpa using hfr'
        rw [fragmentsOf_keys]
        exact nodup_firstDedup _
  exact collapse_go_sound frags ((frags.map Prod.fst).length + 1) (frags.map Prod.fst)
    ks hnd huniq hcol

theorem C2_witness :
    ¬ isChild [("5", ["3"]), ("3", ["4"])] "5" :=
  C2_fragment_minimality_amended sPhantom [("5", ["3"]), ("3", ["4"])] ["5"]
    (by decide) (by decide) (by decide) "5" (by decide)

end ConnectGraph
